import Mathlib

/-!
Verification development for the `calc` repository: a shallow embedding of
its three-stage pipeline (lexer `src/lexer.rs`, Pratt parser `src/parser.rs`,
stack-machine interpreter `src/vm.rs`) together with theorems settling the
specified properties.

Modelling conventions:
* `f64` is modelled by `Calc.F64`: `nan`, the two infinities, and exact
  rationals for the finite values.  Finite arithmetic is exact (rounding and
  overflow of IEEE doubles are not modelled); the NaN/infinity propagation
  rules follow IEEE 754.  The transcendental functions (`sin`, `asin`, ...)
  have exactly specified NaN conditions, while their finite values are taken
  from an arbitrary parameter structure `RealFns` — every theorem below holds
  for all instantiations, so nothing depends on the stand-in values.
* Rust `Vec<f64>` stacks are lists with the top of the stack at the head;
  Rust's `stack[0]` (the bottom element) is `List.getLast?`.
* Fallible Rust code returns `Res`: `ok`, `err`, or `panic` (the latter for
  out-of-bounds indexing, `unwrap` failures and fuel exhaustion of the
  fuel-indexed recursions; all recursions are given ample fuel).
* Loops and recursion are compiled to fuel-indexed structural recursion.
-/

namespace Calc

/-- Result of a fallible computation: success, a recoverable error value, or
a Rust panic (out-of-bounds slice/`Vec` indexing or a failed `unwrap`). -/
inductive Res (ε : Type) (α : Type) where
  | ok (a : α)
  | err (e : ε)
  | panic
deriving DecidableEq

/-- Decidable equality for `Except`, used to evaluate the VM helpers on
concrete inputs. -/
instance {ε α : Type} [DecidableEq ε] [DecidableEq α] : DecidableEq (Except ε α) :=
  fun a b =>
    match a, b with
    | .ok x, .ok y =>
        match decEq x y with
        | isTrue h => isTrue (congrArg Except.ok h)
        | isFalse h => isFalse (fun hh => h (Except.ok.inj hh))
    | .error x, .error y =>
        match decEq x y with
        | isTrue h => isTrue (congrArg Except.error h)
        | isFalse h => isFalse (fun hh => h (Except.error.inj hh))
    | .ok _, .error _ => isFalse (fun hh => Except.noConfusion hh)
    | .error _, .ok _ => isFalse (fun hh => Except.noConfusion hh)

/-- Model of Rust `f64`: NaN, the two infinities, and exact rational finite
values.  (`-0.0` is identified with `0`; IEEE rounding/overflow of finite
arithmetic is not modelled, which no claim below depends on.) -/
inductive F64 where
  | nan
  | inf
  | ninf
  | fin (q : ℚ)
deriving DecidableEq

/-- Finite values of the transcendental functions used by the VM.  The VM
semantics is parametric in these, so the theorems hold for every choice;
only the NaN conditions (which are specified exactly in the `F64` wrappers
below) matter for any claim. -/
structure RealFns where
  sinQ : ℚ → ℚ
  cosQ : ℚ → ℚ
  tanQ : ℚ → ℚ
  asinQ : ℚ → ℚ
  acosQ : ℚ → ℚ
  atanQ : ℚ → ℚ
  toRadQ : ℚ → ℚ
  toDegQ : ℚ → ℚ
  atanInfQ : ℚ

/-- A concrete instantiation of `RealFns`, used for the closed witness and
counterexample computations (their statements never depend on its values). -/
def R0 : RealFns := ⟨id, id, id, id, id, id, id, id, 0⟩

namespace F64

/-- IEEE negation on the model (`-x`). -/
def neg : F64 → F64
  | nan => nan
  | inf => ninf
  | ninf => inf
  | fin q => fin (-q)

/-- IEEE addition on the model. -/
def add : F64 → F64 → F64
  | nan, _ => nan
  | _, nan => nan
  | inf, ninf => nan
  | ninf, inf => nan
  | inf, _ => inf
  | _, inf => inf
  | ninf, _ => ninf
  | _, ninf => ninf
  | fin a, fin b => fin (a + b)

/-- IEEE subtraction on the model. -/
def sub : F64 → F64 → F64
  | nan, _ => nan
  | _, nan => nan
  | inf, inf => nan
  | ninf, ninf => nan
  | inf, _ => inf
  | _, inf => ninf
  | ninf, _ => ninf
  | _, ninf => inf
  | fin a, fin b => fin (a - b)

/-- IEEE multiplication on the model (`0 * ±inf = NaN`). -/
def mul : F64 → F64 → F64
  | nan, _ => nan
  | _, nan => nan
  | inf, inf => inf
  | inf, ninf => ninf
  | ninf, inf => ninf
  | ninf, ninf => inf
  | inf, fin q => if q = 0 then nan else if 0 < q then inf else ninf
  | ninf, fin q => if q = 0 then nan else if 0 < q then ninf else inf
  | fin q, inf => if q = 0 then nan else if 0 < q then inf else ninf
  | fin q, ninf => if q = 0 then nan else if 0 < q then ninf else inf
  | fin a, fin b => fin (a * b)

/-- IEEE division on the model (`±inf / ±inf = NaN`, `finite / ±inf = 0`,
division of a nonzero finite by zero gives a signed infinity; the VM guards
the zero-divisor case before ever calling this). -/
def div : F64 → F64 → F64
  | nan, _ => nan
  | _, nan => nan
  | inf, inf => nan
  | inf, ninf => nan
  | ninf, inf => nan
  | ninf, ninf => nan
  | inf, fin q => if q < 0 then ninf else inf
  | ninf, fin q => if q < 0 then inf else ninf
  | fin _, inf => fin 0
  | fin _, ninf => fin 0
  | fin a, fin b => if b = 0 then (if a = 0 then nan else if 0 < a then inf else ninf) else fin (a / b)

/-- IEEE equality test (`==` in Rust): NaN compares unequal to everything. -/
def beq : F64 → F64 → Bool
  | fin a, fin b => a = b
  | inf, inf => true
  | ninf, ninf => true
  | _, _ => false

/-- IEEE less-than (`<` in Rust): any comparison involving NaN is false. -/
def flt : F64 → F64 → Bool
  | nan, _ => false
  | _, nan => false
  | ninf, ninf => false
  | ninf, _ => true
  | _, ninf => false
  | inf, _ => false
  | fin _, inf => true
  | fin a, fin b => a < b

/-- `f64::is_nan`. -/
def isNan : F64 → Bool
  | nan => true
  | _ => false

end F64

/-- `f64::sin` (degrees of freedom only in the finite values; `sin(±inf)` and
`sin(NaN)` are NaN, exactly as in IEEE). -/
def sinF (R : RealFns) : F64 → F64
  | .fin q => .fin (R.sinQ q)
  | _ => .nan

/-- `f64::cos`. -/
def cosF (R : RealFns) : F64 → F64
  | .fin q => .fin (R.cosQ q)
  | _ => .nan

/-- `f64::tan`. -/
def tanF (R : RealFns) : F64 → F64
  | .fin q => .fin (R.tanQ q)
  | _ => .nan

/-- `f64::asin`: NaN exactly when the argument is NaN, infinite, or a finite
value outside `[-1, 1]`. -/
def asinF (R : RealFns) : F64 → F64
  | .fin q => if q < -1 ∨ 1 < q then .nan else .fin (R.asinQ q)
  | _ => .nan

/-- `f64::acos`: same NaN condition as `asin`. -/
def acosF (R : RealFns) : F64 → F64
  | .fin q => if q < -1 ∨ 1 < q then .nan else .fin (R.acosQ q)
  | _ => .nan

/-- `f64::atan`: total on the reals; NaN only for NaN, `atan(±inf) = ±π/2`. -/
def atanF (R : RealFns) : F64 → F64
  | .fin q => .fin (R.atanQ q)
  | .inf => .fin R.atanInfQ
  | .ninf => .fin (-R.atanInfQ)
  | .nan => .nan

/-- `f64::to_radians` (multiplication by the finite constant `π/180`). -/
def toRadiansF (R : RealFns) : F64 → F64
  | .fin q => .fin (R.toRadQ q)
  | .inf => .inf
  | .ninf => .ninf
  | .nan => .nan

/-- `f64::to_degrees` (multiplication by the finite constant `180/π`). -/
def toDegreesF (R : RealFns) : F64 → F64
  | .fin q => .fin (R.toDegQ q)
  | .inf => .inf
  | .ninf => .ninf
  | .nan => .nan

/-- `Operation` from `src/operation.rs`.

Modelled from the spec: the `Power` variant is referenced by `parser.rs`
(`TokenType::Caret => self.operations.push(Operation::Power)`) but missing
from the `Operation` declaration in `src/operation.rs`; the spec lists
`Power` among the operation variants, so it is included here.  The VM's
`match` sends it (like `Ans`, `Ln`, `Exp`) to the catch-all
`NotImplemented` arm, which is faithful to `vm.rs` as written. -/
inductive Operation where
  | Ans
  | Const (val : F64)
  | Negate
  | Add
  | Subtract
  | Times
  | Divide
  | Sin
  | Cos
  | Tan
  | ArcSin
  | ArcCos
  | ArcTan
  | Ln
  | Exp
  | Power
deriving DecidableEq

/-- `RuntimeError` from `src/vm.rs`. -/
inductive RuntimeError where
  | MathError
  | DomainError
  | Underflow
  | NotImplemented
deriving DecidableEq

/-- `InterpretOutput` from `src/vm.rs`. -/
structure InterpretOutput where
  result : F64
deriving DecidableEq

/-- `VirtualMachine` state from `src/vm.rs`: the `use_radians` flag and the
(never accessed) `table: HashMap<String, f64>`, modelled as an association
list.  Note: the struct has no last-answer field. -/
structure VirtualMachine where
  use_radians : Bool
  table : List (String × F64)
deriving DecidableEq

/-- `VirtualMachine::new`. -/
def VirtualMachine.new : VirtualMachine := ⟨true, []⟩

/-- `interpret_add`: pops `x` then `y`, pushes `y + x`; `Underflow` with
fewer than two operands. -/
def interpret_add (stack : List F64) : Except RuntimeError (List F64) :=
  match stack with
  | x :: y :: rest => .ok (F64.add y x :: rest)
  | _ => .error .Underflow

/-- `interpret_subtract`: pops `x` then `y`, pushes `y - x`. -/
def interpret_subtract (stack : List F64) : Except RuntimeError (List F64) :=
  match stack with
  | x :: y :: rest => .ok (F64.sub y x :: rest)
  | _ => .error .Underflow

/-- `interpret_times`: pops `x` then `y`, pushes `y * x`. -/
def interpret_times (stack : List F64) : Except RuntimeError (List F64) :=
  match stack with
  | x :: y :: rest => .ok (F64.mul y x :: rest)
  | _ => .error .Underflow

/-- `interpret_divide`: pops `x` then `y`; `MathError` if `x == 0.0`, else
pushes `y / x`. -/
def interpret_divide (stack : List F64) : Except RuntimeError (List F64) :=
  match stack with
  | x :: y :: rest =>
      if F64.beq x (.fin 0) then .error .MathError else .ok (F64.div y x :: rest)
  | _ => .error .Underflow

/-- `interpret_negate`: pops one value and pushes its negation. -/
def interpret_negate (stack : List F64) : Except RuntimeError (List F64) :=
  match stack with
  | val :: rest => .ok (F64.neg val :: rest)
  | _ => .error .Underflow

/-- `interpret_trig`: pops one operand, converts degrees to radians when the
VM is in degree mode, applies the trig function named by `op` and pushes the
result (the catch-all arm mirrors the source's `NotImplemented` arm). -/
def interpret_trig (R : RealFns) (use_radians : Bool) (op : Operation)
    (stack : List F64) : Except RuntimeError (List F64) :=
  match stack with
  | val :: rest =>
      let operand := if use_radians then val else toRadiansF R val
      match op with
      | .Sin => .ok (sinF R operand :: rest)
      | .Cos => .ok (cosF R operand :: rest)
      | .Tan => .ok (tanF R operand :: rest)
      | _ => .error .NotImplemented
  | _ => .error .Underflow

/-- `interpret_inv_trig`: pops one operand, applies the inverse trig
function; `DomainError` when the result is NaN, otherwise converts the
radian result to degrees in degree mode and pushes it. -/
def interpret_inv_trig (R : RealFns) (use_radians : Bool) (op : Operation)
    (stack : List F64) : Except RuntimeError (List F64) :=
  match stack with
  | val :: rest =>
      match (match op with
             | .ArcSin => Except.ok (asinF R val)
             | .ArcCos => Except.ok (acosF R val)
             | .ArcTan => Except.ok (atanF R val)
             | _ => Except.error RuntimeError.NotImplemented) with
      | .error e => .error e
      | .ok result =>
          if F64.isNan result then .error .DomainError
          else .ok ((if use_radians then result else toDegreesF R result) :: rest)
  | _ => .error .Underflow

/-- One iteration of `VirtualMachine::interpret`'s `for` loop: dispatch on
the operation exactly as the source `match` does (`Ans`, `Ln`, `Exp` and
`Power` fall to the `_ => NotImplemented` arm). -/
def step (R : RealFns) (use_radians : Bool) (op : Operation)
    (stack : List F64) : Except RuntimeError (List F64) :=
  match op with
  | .Add => interpret_add stack
  | .Subtract => interpret_subtract stack
  | .Times => interpret_times stack
  | .Divide => interpret_divide stack
  | .Negate => interpret_negate stack
  | .Sin => interpret_trig R use_radians .Sin stack
  | .Cos => interpret_trig R use_radians .Cos stack
  | .Tan => interpret_trig R use_radians .Tan stack
  | .ArcSin => interpret_inv_trig R use_radians .ArcSin stack
  | .ArcCos => interpret_inv_trig R use_radians .ArcCos stack
  | .ArcTan => interpret_inv_trig R use_radians .ArcTan stack
  | .Const val => .ok (val :: stack)
  | _ => .error .NotImplemented

/-- The `for op in operations` loop of `VirtualMachine::interpret`, acting
on the evaluation stack (top of stack at the head of the list). -/
def interpretOps (R : RealFns) (use_radians : Bool) :
    List Operation → List F64 → Except RuntimeError (List F64)
  | [], stack => .ok stack
  | op :: rest, stack =>
      match step R use_radians op stack with
      | .ok stack' => interpretOps R use_radians rest stack'
      | .error e => .error e

/-- `VirtualMachine::interpret`: run the loop on a fresh stack, then read
`stack[0]` (the bottom of the `Vec`, i.e. the last element of our head-first
list) — a read that panics when the final stack is empty. -/
def interpret (R : RealFns) (vm : VirtualMachine) (ops : List Operation) :
    Res RuntimeError InterpretOutput :=
  match interpretOps R vm.use_radians ops [] with
  | .error e => .err e
  | .ok stack =>
      match stack.getLast? with
      | some v => .ok ⟨v⟩
      | none => .panic

/-- `VirtualMachine::interpret` viewed as a state transformer on the
`&mut self` receiver: the method body contains no assignment to any field of
`self` (it only reads `use_radians`), so the post-state equals the pre-state. -/
def interpretVM (R : RealFns) (vm : VirtualMachine) (ops : List Operation) :
    Res RuntimeError InterpretOutput × VirtualMachine :=
  (interpret R vm ops, vm)

/-! ### Lexer (`src/token.rs`, `src/lexer.rs`)

The byte slice `&[u8]` source is modelled as a `List Char`, each element
standing for one byte read back as a `char` (exactly what `Lexer::advance`
does with `self.source[self.curr] as char`).  Inputs the lexer accepts are
all ASCII, so this is faithful on every non-erroring path. -/

/-- `TokenType` from `src/token.rs`.

Modelled from the spec: the variants `Caret`, `Ln` and `Exp` are referenced
by `parser.rs` (`get_parse_rule`, `unary`, `binary`) but missing from the
`TokenType` declaration in `src/token.rs`; the spec's token model lists a
caret token and ln/exp function tokens, so they are included here.  The
lexer (`scan`) as written never produces any of the three. -/
inductive TokenType where
  | LeftParen
  | RightParen
  | Comma
  | Minus
  | Plus
  | Slash
  | Star
  | Number
  | Sin
  | Cos
  | Tan
  | ArcSin
  | ArcCos
  | ArcTan
  | Ans
  | EOF
  | Caret
  | Ln
  | Exp
deriving DecidableEq

/-- `Token` from `src/token.rs`: kind, owned lexeme, half-open byte span. -/
structure Token where
  token_type : TokenType
  lexeme : String
  span : Nat × Nat
deriving DecidableEq

/-- `LexError` from `src/lexer.rs`. -/
inductive LexError where
  | UnexpectedChar (char : String) (span : Nat × Nat)
  | UnknownIdentifier (lexeme : String) (span : Nat × Nat)
  | InvalidNumber (lexeme : String) (span : Nat × Nat)
  | InvalidUTF8 (span : Nat × Nat)
deriving DecidableEq

/-- The `Lexer` struct: source bytes, tokens produced so far, and the
`start`/`curr` offsets. -/
structure LexState where
  source : List Char
  tokens : List Token
  start : Nat
  curr : Nat
deriving DecidableEq

/-- `Lexer::add_token`: push a token whose span is `(start, curr)`. -/
def addToken (st : LexState) (tt : TokenType) (lexeme : String) : LexState :=
  { st with tokens := st.tokens ++ [⟨tt, lexeme, (st.start, st.curr)⟩] }

/-- `Lexer::peek`: the byte at `curr`, or `'\0'` at the end of input. -/
def peekL (st : LexState) : Char :=
  match st.source[st.curr]? with
  | some c => c
  | none => Char.ofNat 0

/-- `Lexer::is_digit`. -/
def isDigitC (c : Char) : Bool := '0' ≤ c && c ≤ '9'

/-- `Lexer::is_alpha` (identifier continuation: both `'z'` and `'Z'`
included). -/
def isAlphaC (c : Char) : Bool := ('a' ≤ c && c ≤ 'z') || ('A' ≤ c && c ≤ 'Z')

/-- The identifier-start pattern of `Lexer::scan`'s match:
`'a'..'z' | 'A'..='Z'` — note the first range is *exclusive*, so a lowercase
`'z'` does not start an identifier. -/
def isIdentStart (c : Char) : Bool := ('a' ≤ c && c < 'z') || ('A' ≤ c && c ≤ 'Z')

/-- The `&source[start..curr]` slice used for lexemes. -/
def sliceLex (st : LexState) : List Char :=
  (st.source.drop st.start).take (st.curr - st.start)

/-- Value of a digit character. -/
def digitVal (c : Char) : ℕ := c.toNat - '0'.toNat

/-- Value of a digit string read as a natural number. -/
def digitsVal (l : List Char) : ℕ := l.foldl (fun acc c => acc * 10 + digitVal c) 0

/-- Model of Rust's `str::parse::<f64>()` on the lexeme shapes the lexer can
produce (runs of digits and dots): defined — with its exact rational value
`intPart.fracPart` — iff the string contains at least one digit, no
character other than digits and dots, and at most one dot.  Both the lexer's
number validation and the parser's `unwrap` go through `parse::<f64>()` in
the source, and both go through this single model here, so the two stages
remain consistent. -/
def parseNumF64 (l : List Char) : Option F64 :=
  if (∀ c ∈ l, isDigitC c ∨ c = '.') ∧ l.count '.' ≤ 1 ∧ ∃ c ∈ l, isDigitC c then
    let ip := l.takeWhile (fun c => c ≠ '.')
    let fp := (l.dropWhile (fun c => c ≠ '.')).drop 1
    some (.fin (mkRat (digitsVal ip * 10 ^ fp.length + digitsVal fp) (10 ^ fp.length)))
  else
    none

/-- The first `while` loop of `Lexer::number`: consume digits.  (The
`println!` debug side effect in the source loop body has no bearing on the
returned tokens and is not modelled.) -/
def consumeDigits : Nat → LexState → Option LexState
  | 0, _ => none
  | fuel + 1, st =>
      if isDigitC (peekL st) then consumeDigits fuel { st with curr := st.curr + 1 }
      else some st

/-- The second `while` loop of `Lexer::number` (after an optional dot):
consume digits *and further dots*. -/
def consumeDigitsDots : Nat → LexState → Option LexState
  | 0, _ => none
  | fuel + 1, st =>
      if isDigitC (peekL st) || peekL st = '.' then
        consumeDigitsDots fuel { st with curr := st.curr + 1 }
      else some st

/-- `Lexer::number`: consume digits, an optional dot followed by
digits-and-dots, then validate the lexeme via the float parse; an invalid
lexeme (two dots, a lone dot) is `InvalidNumber` carrying the full lexeme. -/
def numberF (fuel : Nat) (st : LexState) : Res LexError LexState :=
  match consumeDigits fuel st with
  | none => .panic
  | some st1 =>
      match (if peekL st1 = '.' then consumeDigitsDots fuel { st1 with curr := st1.curr + 1 }
             else some st1) with
      | none => .panic
      | some st2 =>
          let lexeme := sliceLex st2
          if (parseNumF64 lexeme).isSome then
            .ok (addToken st2 .Number (String.mk lexeme))
          else
            .err (.InvalidNumber (String.mk lexeme) (st2.start, st2.curr))

/-- The `while` loop of `Lexer::identifier`: consume the maximal run of
ASCII letters. -/
def consumeAlpha : Nat → LexState → Option LexState
  | 0, _ => none
  | fuel + 1, st =>
      if isAlphaC (peekL st) then consumeAlpha fuel { st with curr := st.curr + 1 }
      else some st

/-- `Lexer::identifier_type`: resolve a lexeme against the keyword table —
only the six trig names are present (no `ans`, `ln` or `exp` arms exist in
the source match); everything else is `UnknownIdentifier`. -/
def identifierType (lexeme : String) (span : Nat × Nat) : Except LexError TokenType :=
  if lexeme = "sin" then .ok .Sin
  else if lexeme = "cos" then .ok .Cos
  else if lexeme = "tan" then .ok .Tan
  else if lexeme = "arcsin" then .ok .ArcSin
  else if lexeme = "arccos" then .ok .ArcCos
  else if lexeme = "arctan" then .ok .ArcTan
  else .error (.UnknownIdentifier lexeme span)

/-- `Lexer::identifier`: consume the letter run, slice the lexeme (the
`from_utf8` decoding step cannot fail here, every consumed byte being an
ASCII letter) and resolve it. -/
def identifierF (fuel : Nat) (st : LexState) : Res LexError LexState :=
  match consumeAlpha fuel st with
  | none => .panic
  | some st1 =>
      let lexeme := String.mk (sliceLex st1)
      match identifierType lexeme (st1.start, st1.curr) with
      | .ok tt => .ok (addToken st1 tt lexeme)
      | .error e => .err e

/-- The main `while` loop of `Lexer::scan`, followed by the terminal EOF
token emission: on loop exit the source sets `start = curr`, increments
`curr` once more, and appends an EOF token — whose span is therefore
`(len, len + 1)`. -/
def scanLoop : Nat → LexState → Res LexError (List Token)
  | 0, _ => .panic
  | fuel + 1, st =>
      if st.curr < st.source.length then
        let st0 := { st with start := st.curr }
        match st0.source[st0.curr]? with
        | none => .panic
        | some c =>
            let st1 := { st0 with curr := st0.curr + 1 }
            if c = '(' then scanLoop fuel (addToken st1 .LeftParen (String.mk [c]))
            else if c = ')' then scanLoop fuel (addToken st1 .RightParen (String.mk [c]))
            else if c = ',' then scanLoop fuel (addToken st1 .Comma (String.mk [c]))
            else if c = '-' then scanLoop fuel (addToken st1 .Minus (String.mk [c]))
            else if c = '+' then scanLoop fuel (addToken st1 .Plus (String.mk [c]))
            else if c = '*' then scanLoop fuel (addToken st1 .Star (String.mk [c]))
            else if c = '/' then scanLoop fuel (addToken st1 .Slash (String.mk [c]))
            else if c = ' ' ∨ c = '\r' ∨ c = '\n' ∨ c = '\t' then scanLoop fuel st1
            else if isDigitC c ∨ c = '.' then
              match numberF fuel st1 with
              | .ok st2 => scanLoop fuel st2
              | .err e => .err e
              | .panic => .panic
            else if isIdentStart c then
              match identifierF fuel st1 with
              | .ok st2 => scanLoop fuel st2
              | .err e => .err e
              | .panic => .panic
            else
              .err (.UnexpectedChar (String.mk [c]) (st1.start, st1.curr))
      else
        let st2 := { st with start := st.curr, curr := st.curr + 1 }
        .ok (addToken st2 .EOF "").tokens

/-- The public `scan` entry point (`lexer::scan`), with fuel ample for the
source length (each loop iteration and each inner consumption step advances
`curr` by at least one). -/
def scan (source : List Char) : Res LexError (List Token) :=
  scanLoop (2 * source.length + 8) ⟨source, [], 0, 0⟩

/-! ### Parser (`src/parser.rs`)

The mutually recursive parse functions (`parse_precedence`, the infix loop,
`grouping`, `unary`, `binary`, `number`, `ans`, `expression`) are compiled
into a single fuel-indexed function `runP` dispatching on a call tag
(`PCall`), which keeps the recursion structural in the fuel.  The source's
function-pointer dispatch table becomes the pure lookup `getParseRule`
returning rule *tags* (`RuleFn`); `pre`/`mid` are its `prefix`/`infix`
fields. -/

/-- `Precedence` from `src/parser.rs`, in declaration order.  Note that the
declaration order (which `derive(PartialOrd, Ord)` uses for comparisons)
puts `Unary` *below* `Exponent`, while `next()` below follows the
term–factor–exponent–unary–call chain. -/
inductive Precedence where
  | None
  | Term
  | Factor
  | Unary
  | Exponent
  | Call
  | Primary
deriving DecidableEq

/-- The derived `Ord` of `Precedence`: declaration-order rank. -/
def Precedence.rank : Precedence → Nat
  | .None => 0
  | .Term => 1
  | .Factor => 2
  | .Unary => 3
  | .Exponent => 4
  | .Call => 5
  | .Primary => 6

/-- `Precedence::next`. -/
def Precedence.next : Precedence → Precedence
  | .None => .Term
  | .Term => .Factor
  | .Factor => .Exponent
  | .Exponent => .Unary
  | .Unary => .Call
  | .Call => .Primary
  | .Primary => .Primary

/-- `ParseError` from `src/parser.rs`. -/
inductive ParseError where
  | ExpectExpression (token : Token)
  | ExpectEndOfExpression
  | ExpectRightParenAfterExpression (token : Token)
deriving DecidableEq

/-- The `Parser` struct: token list, operations emitted so far, and the
`curr`/`prev` indices. -/
structure PState where
  tokens : List Token
  operations : List Operation
  curr : Nat
  prev : Nat
deriving DecidableEq

/-- `Parser::advance`. -/
def padvance (s : PState) : PState :=
  { s with prev := s.curr, curr := s.curr + 1 }

/-- Tags naming the parse-rule handler functions stored in the source's
`ParseRule` function-pointer fields. -/
inductive RuleFn where
  | grouping
  | unary
  | binary
  | number
  | ans
deriving DecidableEq

/-- `ParseRule`: optional handler for operand position (`pre`, the source's
first field), optional handler for operator position (`mid`, the source's
second field), and a binding precedence. -/
structure ParseRule where
  pre : Option RuleFn
  mid : Option RuleFn
  prec : Precedence

/-- `Parser::get_parse_rule`, arm for arm; the catch-all covers
`RightParen`, `Comma` and `EOF`. -/
def getParseRule : TokenType → ParseRule
  | .Caret => ⟨none, some .binary, .Exponent⟩
  | .LeftParen => ⟨some .grouping, none, .Call⟩
  | .Minus => ⟨some .unary, some .binary, .Term⟩
  | .Plus => ⟨none, some .binary, .Term⟩
  | .Slash => ⟨none, some .binary, .Factor⟩
  | .Star => ⟨none, some .binary, .Factor⟩
  | .Ans => ⟨some .ans, none, .None⟩
  | .Number => ⟨some .number, none, .None⟩
  | .Sin => ⟨some .unary, none, .Term⟩
  | .Cos => ⟨some .unary, none, .Term⟩
  | .Tan => ⟨some .unary, none, .Term⟩
  | .ArcSin => ⟨some .unary, none, .Term⟩
  | .ArcCos => ⟨some .unary, none, .Term⟩
  | .ArcTan => ⟨some .unary, none, .Term⟩
  | .Exp => ⟨some .unary, none, .Term⟩
  | .Ln => ⟨some .unary, none, .Term⟩
  | _ => ⟨none, none, .None⟩

/-- The operation `Parser::unary` pushes for the saved prefix token type
(no push for the catch-all `_` arm). -/
def unaryPush : TokenType → List Operation
  | .Minus => [.Negate]
  | .Sin => [.Sin]
  | .Cos => [.Cos]
  | .Tan => [.Tan]
  | .ArcSin => [.ArcSin]
  | .ArcCos => [.ArcCos]
  | .ArcTan => [.ArcTan]
  | .Ln => [.Ln]
  | .Exp => [.Exp]
  | _ => []

/-- The operation `Parser::binary` pushes for the saved operator token type
(no push for the catch-all `_` arm). -/
def binaryPush : TokenType → List Operation
  | .Plus => [.Add]
  | .Minus => [.Subtract]
  | .Star => [.Times]
  | .Slash => [.Divide]
  | .Caret => [.Power]
  | _ => []

/-- Call tags for the parser's mutually recursive functions:
`parse_precedence`, its trailing infix `while` loop, and the five rule
handlers plus `expression`. -/
inductive PCall where
  | pexpr
  | pprec (prec : Precedence)
  | ploop (prec : Precedence)
  | pgroup
  | punary
  | pbinary
  | pnumber
  | pans
deriving DecidableEq

/-- Map a stored rule tag to its call tag. -/
def RuleFn.toCall : RuleFn → PCall
  | .grouping => .pgroup
  | .unary => .punary
  | .binary => .pbinary
  | .number => .pnumber
  | .ans => .pans

/-- `Parser::consume(TokenType::RightParen, ..)` as used by `grouping`:
on mismatch the error closure reads `self.curr()`, which panics when the
token cursor is past the end. -/
def consumeRParen (s : PState) : Res ParseError PState :=
  match s.tokens[s.curr]? with
  | some t =>
      if t.token_type = .RightParen then .ok (padvance s)
      else .err (.ExpectRightParenAfterExpression t)
  | none => .panic

/-- `Parser::consume(TokenType::EOF, ..)` as used by `parse`: the error
closure ignores the parser state, so running off the end is a plain error. -/
def consumeEOF (s : PState) : Res ParseError PState :=
  match s.tokens[s.curr]? with
  | some t =>
      if t.token_type = .EOF then .ok (padvance s)
      else .err .ExpectEndOfExpression
  | none => .err .ExpectEndOfExpression

/-- The body of the parser's mutual recursion, one arm per source function:

* `pexpr` — `Parser::expression`: `parse_precedence(Term)`.
* `pprec p` — `Parser::parse_precedence`: advance, look up the previous
  token's prefix rule (`ExpectExpression` if there is none), run it, then
  run the infix loop.
* `ploop p` — the `while` loop of `parse_precedence`: stop at the end of
  the tokens or when `p` binds strictly tighter than the current token's
  rule precedence; otherwise advance and run the token's infix rule if any
  (silently skipping tokens that have none, as the source's `None => {}`
  arm does).
* `pgroup` — `Parser::grouping`: a full sub-expression then `)`.
* `punary` — `Parser::unary`: save the previous token type, parse at
  `Unary` precedence, then emit the matching operation.
* `pbinary` — `Parser::binary`: save the operator type, parse the right
  operand at the operator's precedence promoted by `next()`, then emit the
  matching operation.
* `pnumber` — `Parser::number`: `Const` of the previous token's lexeme
  parsed as `f64` (`unwrap` panics if the parse fails).
* `pans` — `Parser::ans`: emit `Ans`.
-/
def runP : Nat → PCall → PState → Res ParseError PState
  | 0, _, _ => .panic
  | fuel + 1, c, s =>
      match c with
      | .pexpr => runP fuel (.pprec .Term) s
      | .pprec p =>
          let s1 := padvance s
          match s1.tokens[s1.prev]? with
          | none => .panic
          | some ptok =>
              match (getParseRule ptok.token_type).pre with
              | none => .err (.ExpectExpression ptok)
              | some r =>
                  match runP fuel r.toCall s1 with
                  | .ok s2 => runP fuel (.ploop p) s2
                  | .err e => .err e
                  | .panic => .panic
      | .ploop p =>
          if s.curr < s.tokens.length then
            match s.tokens[s.curr]? with
            | none => .panic
            | some ctok =>
                if (getParseRule ctok.token_type).prec.rank < p.rank then .ok s
                else
                  let s1 := padvance s
                  match s1.tokens[s1.prev]? with
                  | none => .panic
                  | some ptok =>
                      match (getParseRule ptok.token_type).mid with
                      | none => runP fuel (.ploop p) s1
                      | some r =>
                          match runP fuel r.toCall s1 with
                          | .ok s2 => runP fuel (.ploop p) s2
                          | .err e => .err e
                          | .panic => .panic
          else .ok s
      | .pgroup =>
          match runP fuel .pexpr s with
          | .ok s1 => consumeRParen s1
          | .err e => .err e
          | .panic => .panic
      | .punary =>
          match s.tokens[s.prev]? with
          | none => .panic
          | some ptok =>
              match runP fuel (.pprec .Unary) s with
              | .ok s1 => .ok { s1 with operations := s1.operations ++ unaryPush ptok.token_type }
              | .err e => .err e
              | .panic => .panic
      | .pbinary =>
          match s.tokens[s.prev]? with
          | none => .panic
          | some ptok =>
              match runP fuel (.pprec (getParseRule ptok.token_type).prec.next) s with
              | .ok s1 => .ok { s1 with operations := s1.operations ++ binaryPush ptok.token_type }
              | .err e => .err e
              | .panic => .panic
      | .pnumber =>
          match s.tokens[s.prev]? with
          | none => .panic
          | some ptok =>
              match parseNumF64 ptok.lexeme.toList with
              | some v => .ok { s with operations := s.operations ++ [.Const v] }
              | none => .panic
      | .pans => .ok { s with operations := s.operations ++ [.Ans] }

/-- Fuel ample for any run of the parser on the given tokens: every cycle of
the call graph passes through an `advance`, so the recursion depth is
linearly bounded by the number of tokens. -/
def pfuel (tokens : List Token) : Nat := 8 * tokens.length + 16

/-- The public `parse` entry point (`parser::parse` / `Parser::parse`):
run `expression` from a fresh parser state, require the `EOF` token, and
return the emitted operation sequence. -/
def parse (tokens : List Token) : Res ParseError (List Operation) :=
  match runP (pfuel tokens) .pexpr ⟨tokens, [], 0, 0⟩ with
  | .ok s1 =>
      match consumeEOF s1 with
      | .ok s2 => .ok s2.operations
      | .err e => .err e
      | .panic => .panic
  | .err e => .err e
  | .panic => .panic

/-! ### Static stack-effect weight, used to state the parser/VM invariant -/

/-- The parser's intended stack effect of one operation: operands (`Const`,
`Ans`) push one value, unary operations are neutral, binary operations
consume one net value.  (At runtime `Ans`, `Ln`, `Exp` and `Power` always
fail with `NotImplemented`, so successful interpretation only ever sees
operations whose real effect equals this weight.) -/
def netVal : Operation → ℤ
  | .Const _ => 1
  | .Ans => 1
  | .Add => -1
  | .Subtract => -1
  | .Times => -1
  | .Divide => -1
  | .Power => -1
  | _ => 0

/-- Net stack effect of an operation sequence. -/
def netList (ops : List Operation) : ℤ := (ops.map netVal).sum

/-- Token types whose `binary` handler emits an operation (the five arms of
the `match` in `Parser::binary`). -/
def isBinTok : TokenType → Bool
  | .Plus => true
  | .Minus => true
  | .Star => true
  | .Slash => true
  | .Caret => true
  | _ => false

/-- Expected net stack effect of each parser call: every expression-shaped
call emits a net of one value, the infix loop is neutral, and `binary` is
neutral exactly when its saved operator token really has a push arm. -/
def callNet : PCall → PState → ℤ
  | .ploop _, _ => 0
  | .pbinary, s =>
      match s.tokens[s.prev]? with
      | some t => if isBinTok t.token_type then 0 else 1
      | none => 0
  | _, _ => 1

/-- Spans of a token list are well formed for a source of length `n`:
`start ≤ end ≤ n`. -/
def spansOK (ts : List Token) (n : Nat) : Prop :=
  ∀ t ∈ ts, t.span.1 ≤ t.span.2 ∧ t.span.2 ≤ n

/-- The six keywords known to `identifier_type`. -/
def keywords : List String := ["sin", "cos", "tan", "arcsin", "arccos", "arctan"]

/-! ## Theorems -/

/-- A successful VM step changes the stack length by exactly the static
weight of the operation (the always-failing operations are vacuous here). -/
theorem step_len (R : RealFns) (ur : Bool) (op : Operation) (st st' : List F64)
    (h : step R ur op st = Except.ok st') :
    (st'.length : ℤ) = st.length + netVal op := by
  cases op with
  | Ans => simp [step] at h
  | Ln => simp [step] at h
  | Exp => simp [step] at h
  | Power => simp [step] at h
  | Const v =>
      simp only [step, Except.ok.injEq] at h
      subst h
      simp [netVal]
  | Negate =>
      rcases st with _ | ⟨x, rest⟩
      · simp [step, interpret_negate] at h
      · simp only [step, interpret_negate, Except.ok.injEq] at h
        subst h
        simp [netVal]
  | Add =>
      rcases st with _ | ⟨x, _ | ⟨y, rest⟩⟩
      · simp [step, interpret_add] at h
      · simp [step, interpret_add] at h
      · simp only [step, interpret_add, Except.ok.injEq] at h
        subst h
        simp [netVal]
  | Subtract =>
      rcases st with _ | ⟨x, _ | ⟨y, rest⟩⟩
      · simp [step, interpret_subtract] at h
      · simp [step, interpret_subtract] at h
      · simp only [step, interpret_subtract, Except.ok.injEq] at h
        subst h
        simp [netVal]
  | Times =>
      rcases st with _ | ⟨x, _ | ⟨y, rest⟩⟩
      · simp [step, interpret_times] at h
      · simp [step, interpret_times] at h
      · simp only [step, interpret_times, Except.ok.injEq] at h
        subst h
        simp [netVal]
  | Divide =>
      rcases st with _ | ⟨x, _ | ⟨y, rest⟩⟩
      · simp [step, interpret_divide] at h
      · simp [step, interpret_divide] at h
      · simp only [step, interpret_divide] at h
        split at h
        · simp at h
        · simp only [Except.ok.injEq] at h
          subst h
          simp [netVal]
  | Sin =>
      rcases st with _ | ⟨val, rest⟩
      · simp [step, interpret_trig] at h
      · simp only [step, interpret_trig, Except.ok.injEq] at h
        subst h
        simp [netVal]
  | Cos =>
      rcases st with _ | ⟨val, rest⟩
      · simp [step, interpret_trig] at h
      · simp only [step, interpret_trig, Except.ok.injEq] at h
        subst h
        simp [netVal]
  | Tan =>
      rcases st with _ | ⟨val, rest⟩
      · simp [step, interpret_trig] at h
      · simp only [step, interpret_trig, Except.ok.injEq] at h
        subst h
        simp [netVal]
  | ArcSin =>
      rcases st with _ | ⟨val, rest⟩
      · simp [step, interpret_inv_trig] at h
      · simp only [step, interpret_inv_trig] at h
        split at h
        · simp at h
        · simp only [Except.ok.injEq] at h
          subst h
          simp [netVal]
  | ArcCos =>
      rcases st with _ | ⟨val, rest⟩
      · simp [step, interpret_inv_trig] at h
      · simp only [step, interpret_inv_trig] at h
        split at h
        · simp at h
        · simp only [Except.ok.injEq] at h
          subst h
          simp [netVal]
  | ArcTan =>
      rcases st with _ | ⟨val, rest⟩
      · simp [step, interpret_inv_trig] at h
      · simp only [step, interpret_inv_trig] at h
        split at h
        · simp at h
        · simp only [Except.ok.injEq] at h
          subst h
          simp [netVal]

/-- A successful VM step leaves a nonempty stack: every operation's success
path ends in a push. -/
theorem step_ne (R : RealFns) (ur : Bool) (op : Operation) (st st' : List F64)
    (h : step R ur op st = Except.ok st') : st' ≠ [] := by
  cases op with
  | Ans => simp [step] at h
  | Ln => simp [step] at h
  | Exp => simp [step] at h
  | Power => simp [step] at h
  | Const v =>
      simp only [step, Except.ok.injEq] at h
      subst h; simp
  | Negate =>
      rcases st with _ | ⟨x, rest⟩
      · simp [step, interpret_negate] at h
      · simp only [step, interpret_negate, Except.ok.injEq] at h
        subst h; simp
  | Add =>
      rcases st with _ | ⟨x, _ | ⟨y, rest⟩⟩
      · simp [step, interpret_add] at h
      · simp [step, interpret_add] at h
      · simp only [step, interpret_add, Except.ok.injEq] at h
        subst h; simp
  | Subtract =>
      rcases st with _ | ⟨x, _ | ⟨y, rest⟩⟩
      · simp [step, interpret_subtract] at h
      · simp [step, interpret_subtract] at h
      · simp only [step, interpret_subtract, Except.ok.injEq] at h
        subst h; simp
  | Times =>
      rcases st with _ | ⟨x, _ | ⟨y, rest⟩⟩
      · simp [step, interpret_times] at h
      · simp [step, interpret_times] at h
      · simp only [step, interpret_times, Except.ok.injEq] at h
        subst h; simp
  | Divide =>
      rcases st with _ | ⟨x, _ | ⟨y, rest⟩⟩
      · simp [step, interpret_divide] at h
      · simp [step, interpret_divide] at h
      · simp only [step, interpret_divide] at h
        split at h
        · simp at h
        · simp only [Except.ok.injEq] at h
          subst h; simp
  | Sin =>
      rcases st with _ | ⟨val, rest⟩
      · simp [step, interpret_trig] at h
      · simp only [step, interpret_trig, Except.ok.injEq] at h
        subst h; simp
  | Cos =>
      rcases st with _ | ⟨val, rest⟩
      · simp [step, interpret_trig] at h
      · simp only [step, interpret_trig, Except.ok.injEq] at h
        subst h; simp
  | Tan =>
      rcases st with _ | ⟨val, rest⟩
      · simp [step, interpret_trig] at h
      · simp only [step, interpret_trig, Except.ok.injEq] at h
        subst h; simp
  | ArcSin =>
      rcases st with _ | ⟨val, rest⟩
      · simp [step, interpret_inv_trig] at h
      · simp only [step, interpret_inv_trig] at h
        split at h
        · simp at h
        · simp only [Except.ok.injEq] at h
          subst h; simp
  | ArcCos =>
      rcases st with _ | ⟨val, rest⟩
      · simp [step, interpret_inv_trig] at h
      · simp only [step, interpret_inv_trig] at h
        split at h
        · simp at h
        · simp only [Except.ok.injEq] at h
          subst h; simp
  | ArcTan =>
      rcases st with _ | ⟨val, rest⟩
      · simp [step, interpret_inv_trig] at h
      · simp only [step, interpret_inv_trig] at h
        split at h
        · simp at h
        · simp only [Except.ok.injEq] at h
          subst h; simp

/-- A successful run of the interpreter loop changes the stack length by the
net static weight of the executed sequence. -/
theorem interpretOps_len (R : RealFns) (ur : Bool) :
    ∀ (ops : List Operation) (st st' : List F64),
      interpretOps R ur ops st = Except.ok st' →
      (st'.length : ℤ) = st.length + netList ops := by
  intro ops
  induction ops with
  | nil =>
      intro st st' h
      simp only [interpretOps, Except.ok.injEq] at h
      subst h
      simp [netList]
  | cons op rest ih =>
      intro st st' h
      simp only [interpretOps] at h
      cases hs : step R ur op st with
      | error e => rw [hs] at h; simp at h
      | ok st1 =>
          rw [hs] at h
          simp only [] at h
          have h1 := step_len R ur op st st1 hs
          have h2 := ih st1 st' h
          simp only [netList, List.map_cons, List.sum_cons] at *
          omega

/-- A successful run of the interpreter loop over a nonempty operation
sequence ends with a nonempty stack. -/
theorem interpretOps_ne (R : RealFns) (ur : Bool) :
    ∀ (ops : List Operation) (st st' : List F64),
      ops ≠ [] → interpretOps R ur ops st = Except.ok st' → st' ≠ [] := by
  intro ops
  induction ops with
  | nil => intro st st' hne _; exact absurd rfl hne
  | cons op rest ih =>
      intro st st' _ h
      simp only [interpretOps] at h
      cases hs : step R ur op st with
      | error e => rw [hs] at h; simp at h
      | ok st1 =>
          rw [hs] at h
          simp only [] at h
          rcases rest with _ | ⟨op2, rest2⟩
          · simp only [interpretOps, Except.ok.injEq] at h
            subst h
            exact step_ne R ur op st _ hs
          · exact ih st1 st' (by simp) h

/-- If `peek` returns anything but the end-of-input sentinel `'\0'`, the
cursor is in bounds. -/
theorem peekL_lt (st : LexState) (h : peekL st ≠ Char.ofNat 0) :
    st.curr < st.source.length := by
  by_contra hge
  have h0 : st.source[st.curr]? = none := List.getElem?_eq_none (by omega)
  apply h
  unfold peekL
  rw [h0]

/-- A digit at `peek` means the cursor is in bounds. -/
theorem peekL_digit_lt (st : LexState) (h : isDigitC (peekL st) = true) :
    st.curr < st.source.length :=
  peekL_lt st (fun heq => by rw [heq] at h; exact absurd h (by decide))

/-- A letter at `peek` means the cursor is in bounds. -/
theorem peekL_alpha_lt (st : LexState) (h : isAlphaC (peekL st) = true) :
    st.curr < st.source.length :=
  peekL_lt st (fun heq => by rw [heq] at h; exact absurd h (by decide))

/-- A digit or dot at `peek` means the cursor is in bounds. -/
theorem peekL_digitdot_lt (st : LexState)
    (h : (isDigitC (peekL st) || peekL st = '.') = true) :
    st.curr < st.source.length := by
  apply peekL_lt st
  intro heq
  rw [heq] at h
  exact absurd h (by decide)

/-- A dot at `peek` means the cursor is in bounds. -/
theorem peekL_dot_lt (st : LexState) (h : peekL st = '.') :
    st.curr < st.source.length :=
  peekL_lt st (fun heq => by rw [heq] at h; exact absurd h (by decide))

/-- The digit loop of `number` only moves the cursor forward, stays within
the source, and touches nothing else. -/
theorem consumeDigits_spec : ∀ (fuel : Nat) (st st' : LexState),
    consumeDigits fuel st = some st' →
    st'.source = st.source ∧ st'.tokens = st.tokens ∧ st'.start = st.start ∧
      st.curr ≤ st'.curr ∧ (st.curr ≤ st.source.length → st'.curr ≤ st.source.length) := by
  intro fuel
  induction fuel with
  | zero => intro st st' h; simp [consumeDigits] at h
  | succ fuel ih =>
      intro st st' h
      simp only [consumeDigits] at h
      by_cases hd : isDigitC (peekL st) = true
      · rw [if_pos hd] at h
        have hlt := peekL_digit_lt st hd
        obtain ⟨h1, h2, h3, h4, h5⟩ := ih _ _ h
        exact ⟨h1, h2, h3, by simp at h4; omega, fun _ => by simp at h5; exact h5 (by omega)⟩
      · rw [if_neg hd] at h
        simp only [Option.some.injEq] at h
        subst h
        exact ⟨rfl, rfl, rfl, le_refl _, fun hh => hh⟩

/-- Same for the digit-and-dot loop. -/
theorem consumeDigitsDots_spec : ∀ (fuel : Nat) (st st' : LexState),
    consumeDigitsDots fuel st = some st' →
    st'.source = st.source ∧ st'.tokens = st.tokens ∧ st'.start = st.start ∧
      st.curr ≤ st'.curr ∧ (st.curr ≤ st.source.length → st'.curr ≤ st.source.length) := by
  intro fuel
  induction fuel with
  | zero => intro st st' h; simp [consumeDigitsDots] at h
  | succ fuel ih =>
      intro st st' h
      simp only [consumeDigitsDots] at h
      by_cases hd : (isDigitC (peekL st) || peekL st = '.') = true
      · rw [if_pos hd] at h
        have hlt := peekL_digitdot_lt st hd
        obtain ⟨h1, h2, h3, h4, h5⟩ := ih _ _ h
        exact ⟨h1, h2, h3, by simp at h4; omega, fun _ => by simp at h5; exact h5 (by omega)⟩
      · rw [if_neg hd] at h
        simp only [Option.some.injEq] at h
        subst h
        exact ⟨rfl, rfl, rfl, le_refl _, fun hh => hh⟩

/-- Same for the letter loop of `identifier`. -/
theorem consumeAlpha_spec : ∀ (fuel : Nat) (st st' : LexState),
    consumeAlpha fuel st = some st' →
    st'.source = st.source ∧ st'.tokens = st.tokens ∧ st'.start = st.start ∧
      st.curr ≤ st'.curr ∧ (st.curr ≤ st.source.length → st'.curr ≤ st.source.length) := by
  intro fuel
  induction fuel with
  | zero => intro st st' h; simp [consumeAlpha] at h
  | succ fuel ih =>
      intro st st' h
      simp only [consumeAlpha] at h
      by_cases hd : isAlphaC (peekL st) = true
      · rw [if_pos hd] at h
        have hlt := peekL_alpha_lt st hd
        obtain ⟨h1, h2, h3, h4, h5⟩ := ih _ _ h
        exact ⟨h1, h2, h3, by simp at h4; omega, fun _ => by simp at h5; exact h5 (by omega)⟩
      · rw [if_neg hd] at h
        simp only [Option.some.injEq] at h
        subst h
        exact ⟨rfl, rfl, rfl, le_refl _, fun hh => hh⟩

/-- A successful `number` call appends exactly one `Number` token whose span
runs from the saved `start` to the final in-bounds cursor. -/
theorem numberF_spec (fuel : Nat) (st st' : LexState)
    (h : numberF fuel st = .ok st') :
    st'.source = st.source ∧ st'.start = st.start ∧ st.curr ≤ st'.curr ∧
      (st.curr ≤ st.source.length → st'.curr ≤ st.source.length) ∧
      ∃ lex, st'.tokens = st.tokens ++ [⟨.Number, lex, (st.start, st'.curr)⟩] := by
  unfold numberF at h
  cases h1 : consumeDigits fuel st with
  | none => rw [h1] at h; simp at h
  | some st1 =>
      rw [h1] at h
      simp only [] at h
      obtain ⟨hs1, ht1, hst1, hc1, hl1⟩ := consumeDigits_spec fuel st st1 h1
      by_cases hdot : peekL st1 = '.'
      · rw [if_pos hdot] at h
        have hlt1 := peekL_dot_lt st1 hdot
        cases h2 : consumeDigitsDots fuel { st1 with curr := st1.curr + 1 } with
        | none => rw [h2] at h; simp at h
        | some st2 =>
            rw [h2] at h
            simp only [] at h
            obtain ⟨hs2, ht2, hst2, hc2, hl2⟩ := consumeDigitsDots_spec fuel _ st2 h2
            simp only [] at hs2 ht2 hst2 hc2 hl2
            by_cases hps : (parseNumF64 (sliceLex st2)).isSome = true
            · rw [if_pos hps] at h
              simp only [Res.ok.injEq] at h
              subst h
              simp only [addToken]
              refine ⟨by rw [hs2, hs1], by rw [hst2, hst1], by omega, ?_, ?_⟩
              · intro hle
                have h2le : st2.curr ≤ st1.source.length := hl2 (by omega)
                rw [hs1] at h2le
                exact h2le
              · refine ⟨String.mk (sliceLex st2), ?_⟩
                rw [ht2, ht1, hst2, hst1]
            · rw [if_neg hps] at h; simp at h
      · rw [if_neg hdot] at h
        simp only [] at h
        by_cases hps : (parseNumF64 (sliceLex st1)).isSome = true
        · rw [if_pos hps] at h
          simp only [Res.ok.injEq] at h
          subst h
          simp only [addToken]
          refine ⟨hs1, hst1, hc1, ?_, ?_⟩
          · intro hle
            have h1le : st1.curr ≤ st.source.length := hl1 hle
            exact h1le
          · refine ⟨String.mk (sliceLex st1), ?_⟩
            rw [ht1, hst1]
        · rw [if_neg hps] at h; simp at h

/-- A successful `identifier` call appends exactly one keyword token whose
span runs from the saved `start` to the final in-bounds cursor. -/
theorem identifierF_spec (fuel : Nat) (st st' : LexState)
    (h : identifierF fuel st = .ok st') :
    st'.source = st.source ∧ st'.start = st.start ∧ st.curr ≤ st'.curr ∧
      (st.curr ≤ st.source.length → st'.curr ≤ st.source.length) ∧
      ∃ tt lex, st'.tokens = st.tokens ++ [⟨tt, lex, (st.start, st'.curr)⟩] := by
  unfold identifierF at h
  cases h1 : consumeAlpha fuel st with
  | none => rw [h1] at h; simp at h
  | some st1 =>
      rw [h1] at h
      simp only [] at h
      obtain ⟨hs1, ht1, hst1, hc1, hl1⟩ := consumeAlpha_spec fuel st st1 h1
      cases h2 : identifierType (String.mk (sliceLex st1)) (st1.start, st1.curr) with
      | error e => rw [h2] at h; simp at h
      | ok tt =>
          rw [h2] at h
          simp only [Res.ok.injEq] at h
          subst h
          simp only [addToken]
          refine ⟨hs1, hst1, hc1, ?_, ?_⟩
          · intro hle
            exact hl1 hle
          · refine ⟨tt, String.mk (sliceLex st1), ?_⟩
            rw [ht1, hst1]

/-- Main lexer invariant: a successful `scanLoop` run started from an
in-bounds cursor with well-formed accumulated tokens produces a token list
whose every token except the last is span-wellformed, the last being the
EOF token with span `(len, len + 1)`. -/
theorem scanLoop_spans : ∀ (fuel : Nat) (st : LexState) (ts : List Token),
    st.curr ≤ st.source.length →
    spansOK st.tokens st.source.length →
    scanLoop fuel st = .ok ts →
    spansOK ts.dropLast st.source.length ∧
      ts.getLast? = some ⟨.EOF, "", (st.source.length, st.source.length + 1)⟩ := by
  intro fuel
  induction fuel with
  | zero => intro st ts _ _ h; simp [scanLoop] at h
  | succ fuel ih =>
      intro st ts hcur htoks h
      simp only [scanLoop] at h
      by_cases hin : st.curr < st.source.length
      · rw [if_pos hin] at h
        have hcex : st.source[st.curr]? = some st.source[st.curr] :=
          List.getElem?_eq_getElem hin
        rw [hcex] at h
        simp only [] at h
        set c := st.source[st.curr] with hc
        have hsingle : ∀ (tt : TokenType) (lex : String) (ts' : List Token),
            scanLoop fuel (addToken
              { st with start := st.curr, curr := st.curr + 1 } tt lex) = .ok ts' →
            spansOK ts'.dropLast st.source.length ∧
              ts'.getLast? = some ⟨.EOF, "", (st.source.length, st.source.length + 1)⟩ := by
          intro tt lex ts' h'
          have := ih _ ts' (by simp [addToken]; omega)
            (by
              simp only [addToken, spansOK, List.mem_append, List.mem_singleton]
              rintro t (ht | rfl)
              · exact htoks t ht
              · exact ⟨by simp, by simp; omega⟩) h'
          exact this
        by_cases h1 : c = '('
        · rw [if_pos h1] at h; exact hsingle _ _ _ h
        · rw [if_neg h1] at h
          by_cases h2 : c = ')'
          · rw [if_pos h2] at h; exact hsingle _ _ _ h
          · rw [if_neg h2] at h
            by_cases h3 : c = ','
            · rw [if_pos h3] at h; exact hsingle _ _ _ h
            · rw [if_neg h3] at h
              by_cases h4 : c = '-'
              · rw [if_pos h4] at h; exact hsingle _ _ _ h
              · rw [if_neg h4] at h
                by_cases h5 : c = '+'
                · rw [if_pos h5] at h; exact hsingle _ _ _ h
                · rw [if_neg h5] at h
                  by_cases h6 : c = '*'
                  · rw [if_pos h6] at h; exact hsingle _ _ _ h
                  · rw [if_neg h6] at h
                    by_cases h7 : c = '/'
                    · rw [if_pos h7] at h; exact hsingle _ _ _ h
                    · rw [if_neg h7] at h
                      by_cases h8 : c = ' ' ∨ c = '\r' ∨ c = '\n' ∨ c = '\t'
                      · rw [if_pos h8] at h
                        have := ih { st with start := st.curr, curr := st.curr + 1 } ts
                          (by show st.curr + 1 ≤ st.source.length; omega) htoks h
                        exact this
                      · rw [if_neg h8] at h
                        by_cases h9 : isDigitC c ∨ c = '.'
                        · rw [if_pos h9] at h
                          cases hn : numberF fuel { st with start := st.curr, curr := st.curr + 1 } with
                          | err e => rw [hn] at h; simp at h
                          | panic => rw [hn] at h; simp at h
                          | ok st2 =>
                              rw [hn] at h
                              simp only [] at h
                              obtain ⟨hs2, hst2, hc2, hl2, lex, ht2⟩ := numberF_spec _ _ _ hn
                              have hc2' : st.curr + 1 ≤ st2.curr := hc2
                              have ht2' : st2.tokens
                                  = st.tokens ++ [⟨.Number, lex, (st.curr, st2.curr)⟩] := ht2
                              have h2le : st2.curr ≤ st.source.length :=
                                hl2 (by show st.curr + 1 ≤ st.source.length; omega)
                              have := ih st2 ts (by rw [hs2]; exact h2le)
                                (by
                                  rw [hs2, ht2']
                                  intro t ht
                                  simp only [List.mem_append, List.mem_singleton] at ht
                                  rcases ht with ht | rfl
                                  · exact htoks t ht
                                  · exact ⟨by show st.curr ≤ st2.curr; omega,
                                      by show st2.curr ≤ st.source.length; exact h2le⟩) h
                              rw [hs2] at this
                              exact this
                        · rw [if_neg h9] at h
                          by_cases h10 : isIdentStart c = true
                          · rw [if_pos h10] at h
                            cases hn : identifierF fuel { st with start := st.curr, curr := st.curr + 1 } with
                            | err e => rw [hn] at h; simp at h
                            | panic => rw [hn] at h; simp at h
                            | ok st2 =>
                                rw [hn] at h
                                simp only [] at h
                                obtain ⟨hs2, hst2, hc2, hl2, tt, lex, ht2⟩ := identifierF_spec _ _ _ hn
                                have hc2' : st.curr + 1 ≤ st2.curr := hc2
                                have ht2' : st2.tokens
                                    = st.tokens ++ [⟨tt, lex, (st.curr, st2.curr)⟩] := ht2
                                have h2le : st2.curr ≤ st.source.length :=
                                  hl2 (by show st.curr + 1 ≤ st.source.length; omega)
                                have := ih st2 ts (by rw [hs2]; exact h2le)
                                  (by
                                    rw [hs2, ht2']
                                    intro t ht
                                    simp only [List.mem_append, List.mem_singleton] at ht
                                    rcases ht with ht | rfl
                                    · exact htoks t ht
                                    · exact ⟨by show st.curr ≤ st2.curr; omega,
                                        by show st2.curr ≤ st.source.length; exact h2le⟩) h
                                rw [hs2] at this
                                exact this
                          · rw [if_neg h10] at h; simp at h
      · rw [if_neg hin] at h
        have hlen : st.curr = st.source.length := by omega
        simp only [addToken, Res.ok.injEq] at h
        subst h
        constructor
        · rw [List.dropLast_concat]
          exact htoks
        · rw [List.getLast?_concat]
          simp [hlen]

/-- C6 (amended): on every input on which `scan` succeeds, every token
except the terminal EOF token satisfies `span.start ≤ span.end ≤
len(source)`; the terminal EOF token instead has span
`(len(source), len(source) + 1)` — its end offset exceeds the source length
by one, because `Lexer::scan` increments `curr` once more before emitting
it. -/
theorem scan_spans (src : List Char) (ts : List Token) (h : scan src = .ok ts) :
    spansOK ts.dropLast src.length ∧
      ts.getLast? = some ⟨.EOF, "", (src.length, src.length + 1)⟩ :=
  scanLoop_spans _ ⟨src, [], 0, 0⟩ ts (by simp) (by simp [spansOK]) h

/-- C6 witness: the tokens of `"1"`. -/
theorem scan_spans_witness :
    spansOK ([⟨.Number, "1", (0, 1)⟩, ⟨.EOF, "", (1, 2)⟩] : List Token).dropLast
        ("1".toList).length ∧
      ([⟨.Number, "1", (0, 1)⟩, ⟨.EOF, "", (1, 2)⟩] : List Token).getLast? =
        some ⟨.EOF, "", (("1".toList).length, ("1".toList).length + 1)⟩ :=
  scan_spans "1".toList [⟨.Number, "1", (0, 1)⟩, ⟨.EOF, "", (1, 2)⟩] (by decide)

/-- C6 counterexample: already on the empty input the terminal EOF token has
span `(0, 1)`, whose end exceeds `len(source) = 0` — so the claimed
invariant `span.end ≤ len(source)` fails, and the EOF span does not start
and end at the same offset. -/
theorem scan_eof_span_counterexample :
    scan [] = .ok [⟨.EOF, "", (0, 1)⟩] ∧ ¬((1 : Nat) ≤ ([] : List Char).length) := by
  constructor
  · decide
  · simp

/-- When everything from the cursor to the end of the source is a letter,
the letter loop consumes exactly the rest of the source. -/
theorem consumeAlpha_all : ∀ (fuel : Nat) (st : LexState),
    st.source.length - st.curr < fuel →
    st.curr ≤ st.source.length →
    (∀ c ∈ st.source.drop st.curr, isAlphaC c = true) →
    consumeAlpha fuel st = some { st with curr := st.source.length } := by
  intro fuel
  induction fuel with
  | zero => intro st hf _ _; exact absurd hf (by omega)
  | succ fuel ih =>
      intro st hf hc hall
      simp only [consumeAlpha]
      by_cases hlt : st.curr < st.source.length
      · have hdec : st.source.drop st.curr
            = st.source[st.curr] :: st.source.drop (st.curr + 1) :=
          List.drop_eq_getElem_cons hlt
        have hpeek : isAlphaC (peekL st) = true := by
          have hg : st.source[st.curr]? = some st.source[st.curr] :=
            List.getElem?_eq_getElem hlt
          have hpe : peekL st = st.source[st.curr] := by unfold peekL; rw [hg]
          rw [hpe]
          exact hall _ (by rw [hdec]; exact List.mem_cons_self _ _)
        rw [if_pos hpeek]
        have := ih { st with curr := st.curr + 1 }
          (by show st.source.length - (st.curr + 1) < fuel; omega)
          (by show st.curr + 1 ≤ st.source.length; omega)
          (by
            show ∀ x ∈ st.source.drop (st.curr + 1), isAlphaC x = true
            intro x hx
            exact hall x (by rw [hdec]; exact List.mem_cons_of_mem _ hx))
        exact this
      · have hpeek : peekL st = Char.ofNat 0 := by
          unfold peekL
          rw [List.getElem?_eq_none (by omega)]
        rw [if_neg (by rw [hpeek]; decide)]
        have hst : ({ st with curr := st.source.length } : LexState) = st := by
          have hceq : st.source.length = st.curr := by omega
          cases st with
          | mk s t a cu => simp only [] at hceq ⊢; rw [hceq]
        rw [hst]

/-- A character that can start an identifier is distinct from every earlier
arm of the scan match: not a special character, not whitespace, not a digit
and not a dot. -/
theorem identStart_chain (c : Char) (h : isIdentStart c = true) :
    ¬c = '(' ∧ ¬c = ')' ∧ ¬c = ',' ∧ ¬c = '-' ∧ ¬c = '+' ∧ ¬c = '*' ∧ ¬c = '/' ∧
      ¬(c = ' ' ∨ c = '\r' ∨ c = '\n' ∨ c = '\t') ∧ ¬(isDigitC c = true ∨ c = '.') := by
  have h' : ('a' ≤ c ∧ c < 'z') ∨ ('A' ≤ c ∧ c ≤ 'Z') := by
    simpa [isIdentStart, Bool.or_eq_true, Bool.and_eq_true, decide_eq_true_eq] using h
  refine ⟨?_, ?_, ?_, ?_, ?_, ?_, ?_, ?_, ?_⟩
  · rintro rfl; revert h'; decide
  · rintro rfl; revert h'; decide
  · rintro rfl; revert h'; decide
  · rintro rfl; revert h'; decide
  · rintro rfl; revert h'; decide
  · rintro rfl; revert h'; decide
  · rintro rfl; revert h'; decide
  · rintro (rfl | rfl | rfl | rfl) <;> (revert h'; decide)
  · rintro (hd | rfl)
    · have hd' : '0' ≤ c ∧ c ≤ '9' := by
        simpa [isDigitC, Bool.and_eq_true, decide_eq_true_eq] using hd
      rcases h' with ⟨ha, _⟩ | ⟨ha, _⟩
      · exact absurd (le_trans ha hd'.2) (by decide)
      · exact absurd (le_trans ha hd'.2) (by decide)
    · revert h'; decide

/-- Scanning a nonempty all-letter input whose first letter can start an
identifier and which is not one of the six keywords fails with
`UnknownIdentifier` carrying the full lexeme and its span. -/
theorem scanLoop_ident (fuel : Nat) (c : Char) (rest : List Char)
    (hfuel : (c :: rest).length ≤ fuel)
    (hstart : isIdentStart c = true)
    (hall : ∀ x ∈ c :: rest, isAlphaC x = true)
    (hkw : String.mk (c :: rest) ∉ keywords) :
    scanLoop (fuel + 1) ⟨c :: rest, [], 0, 0⟩
      = .err (.UnknownIdentifier (String.mk (c :: rest)) (0, (c :: rest).length)) := by
  obtain ⟨n1, n2, n3, n4, n5, n6, n7, n8, n9⟩ := identStart_chain c hstart
  simp only [scanLoop]
  rw [if_pos (by simp)]
  rw [show (⟨c :: rest, [], 0, 0⟩ : LexState).source[(⟨c :: rest, [], 0, 0⟩ : LexState).curr]?
      = some c by simp]
  simp only []
  rw [if_neg n1, if_neg n2, if_neg n3, if_neg n4, if_neg n5, if_neg n6, if_neg n7,
    if_neg n8, if_neg n9, if_pos hstart]
  unfold identifierF
  rw [consumeAlpha_all fuel ⟨c :: rest, [], 0, 1⟩
    (by simp at hfuel ⊢; omega)
    (by simp)
    (by
      show ∀ x ∈ (c :: rest).drop 1, isAlphaC x = true
      intro x hx
      exact hall x (List.mem_cons_of_mem _ hx))]
  simp only []
  have hlex : sliceLex ⟨c :: rest, [], 0, (c :: rest).length⟩ = c :: rest := by
    simp [sliceLex]
  rw [hlex]
  have hk : ∀ s ∈ keywords, String.mk (c :: rest) ≠ s := by
    intro s hs he
    exact hkw (he ▸ hs)
  unfold identifierType
  rw [if_neg (hk "sin" (by simp [keywords])), if_neg (hk "cos" (by simp [keywords])),
    if_neg (hk "tan" (by simp [keywords])), if_neg (hk "arcsin" (by simp [keywords])),
    if_neg (hk "arccos" (by simp [keywords])), if_neg (hk "arctan" (by simp [keywords]))]

/-- Scanning any input whose first byte is a lowercase `'z'` fails with
`UnexpectedChar`: the identifier-start range pattern `'a'..'z'` of
`Lexer::scan` is exclusive, so `'z'` falls through to the catch-all arm. -/
theorem scanLoop_z (fuel : Nat) (rest : List Char) :
    scanLoop (fuel + 1) ⟨'z' :: rest, [], 0, 0⟩ = .err (.UnexpectedChar "z" (0, 1)) := by
  simp only [scanLoop]
  rw [if_pos (by simp)]
  rw [show (⟨'z' :: rest, [], 0, 0⟩ : LexState).source[(⟨'z' :: rest, [], 0, 0⟩ : LexState).curr]?
      = some 'z' by simp]
  simp only []
  rw [if_neg (by decide), if_neg (by decide), if_neg (by decide), if_neg (by decide),
    if_neg (by decide), if_neg (by decide), if_neg (by decide), if_neg (by decide),
    if_neg (by decide), if_neg (by decide)]

/-- Net weights distribute over list append. -/
theorem netList_append (d1 d2 : List Operation) :
    netList (d1 ++ d2) = netList d1 + netList d2 := by
  simp [netList]

/-- The `unary` handler's push is always weight-neutral. -/
theorem netList_unaryPush (tt : TokenType) : netList (unaryPush tt) = 0 := by
  cases tt <;> simp [unaryPush, netList, netVal]

/-- The `binary` handler's push weighs `-1` exactly on the five operator
token types with a push arm. -/
theorem netList_binaryPush (tt : TokenType) :
    netList (binaryPush tt) = if isBinTok tt then -1 else 0 := by
  cases tt <;> simp [binaryPush, isBinTok, netList, netVal]

/-- Every prefix handler stored in the dispatch table is one of the four
expression-shaped rules (never `binary`). -/
theorem pre_tag (tt : TokenType) (r : RuleFn) (h : (getParseRule tt).pre = some r) :
    r = .grouping ∨ r = .unary ∨ r = .number ∨ r = .ans := by
  cases tt <;> simp_all [getParseRule]

/-- Every infix handler stored in the dispatch table is `binary`, and only
the five operator token types store one. -/
theorem mid_tag (tt : TokenType) (r : RuleFn) (h : (getParseRule tt).mid = some r) :
    r = .binary ∧ isBinTok tt = true := by
  cases tt <;> simp_all [getParseRule, isBinTok]

/-- The expected net of an expression-shaped rule call is one pushed value. -/
theorem callNet_pre (r : RuleFn)
    (h : r = .grouping ∨ r = .unary ∨ r = .number ∨ r = .ans) (s : PState) :
    callNet r.toCall s = 1 := by
  rcases h with h | h | h | h <;> subst h <;> rfl

/-- Core parser invariant: every successful parser call leaves the token
list untouched and appends to the emitted operations a fragment whose net
static stack effect is the call's expected net — in particular each
(sub-)expression emits code for exactly one net value. -/
theorem runP_net : ∀ (fuel : Nat) (c : PCall) (s s' : PState),
    runP fuel c s = .ok s' →
    s'.tokens = s.tokens ∧
      ∃ d, s'.operations = s.operations ++ d ∧ netList d = callNet c s := by
  intro fuel
  induction fuel with
  | zero => intro c s s' h; simp [runP] at h
  | succ fuel ih =>
      intro c s s' h
      cases c with
      | pexpr =>
          simp only [runP] at h
          exact ih (.pprec .Term) s s' h
      | pprec p =>
          simp only [runP, padvance] at h
          cases hp : s.tokens[s.curr]? with
          | none => rw [hp] at h; simp at h
          | some ptok =>
              rw [hp] at h
              simp only [] at h
              cases hr : (getParseRule ptok.token_type).pre with
              | none => rw [hr] at h; simp at h
              | some r =>
                  rw [hr] at h
                  simp only [] at h
                  cases h2 : runP fuel r.toCall ⟨s.tokens, s.operations, s.curr + 1, s.curr⟩ with
                  | err e => rw [h2] at h; simp at h
                  | panic => rw [h2] at h; simp at h
                  | ok s2 =>
                      rw [h2] at h
                      simp only [] at h
                      obtain ⟨ht1, d1, hd1, hn1⟩ := ih _ _ _ h2
                      obtain ⟨ht2, d2, hd2, hn2⟩ := ih _ _ _ h
                      refine ⟨by rw [ht2, ht1], d1 ++ d2, ?_, ?_⟩
                      · rw [hd2, hd1]; simp
                      · rw [netList_append, hn1, hn2,
                          callNet_pre r (pre_tag ptok.token_type r hr)]
                        rfl
      | ploop p =>
          simp only [runP] at h
          by_cases hin : s.curr < s.tokens.length
          · rw [if_pos hin] at h
            cases hc : s.tokens[s.curr]? with
            | none => rw [hc] at h; simp at h
            | some ctok =>
                rw [hc] at h
                simp only [] at h
                by_cases hbrk : (getParseRule ctok.token_type).prec.rank < p.rank
                · rw [if_pos hbrk] at h
                  simp only [Res.ok.injEq] at h
                  subst h
                  exact ⟨rfl, [], by simp, rfl⟩
                · rw [if_neg hbrk] at h
                  simp only [padvance] at h
                  rw [hc] at h
                  simp only [] at h
                  cases hm : (getParseRule ctok.token_type).mid with
                  | none =>
                      rw [hm] at h
                      simp only [] at h
                      obtain ⟨ht, d, hd, hn⟩ := ih _ _ _ h
                      exact ⟨ht, d, hd, hn⟩
                  | some r =>
                      rw [hm] at h
                      simp only [] at h
                      obtain ⟨hrb, hbt⟩ := mid_tag ctok.token_type r hm
                      subst hrb
                      cases h2 : runP fuel RuleFn.binary.toCall
                          ⟨s.tokens, s.operations, s.curr + 1, s.curr⟩ with
                      | err e => rw [h2] at h; simp at h
                      | panic => rw [h2] at h; simp at h
                      | ok s2 =>
                          rw [h2] at h
                          simp only [] at h
                          obtain ⟨ht1, d1, hd1, hn1⟩ := ih _ _ _ h2
                          obtain ⟨ht2, d2, hd2, hn2⟩ := ih _ _ _ h
                          refine ⟨by rw [ht2, ht1], d1 ++ d2, ?_, ?_⟩
                          · rw [hd2, hd1]; simp
                          · rw [netList_append, hn1, hn2]
                            simp [callNet, RuleFn.toCall, hc, hbt]
          · rw [if_neg hin] at h
            simp only [Res.ok.injEq] at h
            subst h
            exact ⟨rfl, [], by simp, rfl⟩
      | pgroup =>
          simp only [runP] at h
          cases h2 : runP fuel .pexpr s with
          | err e => rw [h2] at h; simp at h
          | panic => rw [h2] at h; simp at h
          | ok s2 =>
              rw [h2] at h
              simp only [consumeRParen] at h
              obtain ⟨ht1, d1, hd1, hn1⟩ := ih _ _ _ h2
              cases hc : s2.tokens[s2.curr]? with
              | none => rw [hc] at h; simp at h
              | some t =>
                  rw [hc] at h
                  simp only [] at h
                  by_cases hrp : t.token_type = .RightParen
                  · rw [if_pos hrp] at h
                    simp only [Res.ok.injEq] at h
                    subst h
                    exact ⟨ht1, d1, hd1, by rw [hn1]; rfl⟩
                  · rw [if_neg hrp] at h; simp at h
      | punary =>
          simp only [runP] at h
          cases hp : s.tokens[s.prev]? with
          | none => rw [hp] at h; simp at h
          | some ptok =>
              rw [hp] at h
              simp only [] at h
              cases h2 : runP fuel (.pprec .Unary) s with
              | err e => rw [h2] at h; simp at h
              | panic => rw [h2] at h; simp at h
              | ok s2 =>
                  rw [h2] at h
                  simp only [Res.ok.injEq] at h
                  subst h
                  obtain ⟨ht1, d1, hd1, hn1⟩ := ih _ _ _ h2
                  refine ⟨ht1, d1 ++ unaryPush ptok.token_type, ?_, ?_⟩
                  · simp [hd1]
                  · rw [netList_append, hn1, netList_unaryPush]; rfl
      | pbinary =>
          simp only [runP] at h
          cases hp : s.tokens[s.prev]? with
          | none => rw [hp] at h; simp at h
          | some ptok =>
              rw [hp] at h
              simp only [] at h
              cases h2 : runP fuel (.pprec (getParseRule ptok.token_type).prec.next) s with
              | err e => rw [h2] at h; simp at h
              | panic => rw [h2] at h; simp at h
              | ok s2 =>
                  rw [h2] at h
                  simp only [Res.ok.injEq] at h
                  subst h
                  obtain ⟨ht1, d1, hd1, hn1⟩ := ih _ _ _ h2
                  refine ⟨ht1, d1 ++ binaryPush ptok.token_type, ?_, ?_⟩
                  · simp [hd1]
                  · rw [netList_append, hn1, netList_binaryPush]
                    simp [callNet, hp]
                    by_cases hb : isBinTok ptok.token_type <;> simp [hb]
      | pnumber =>
          simp only [runP] at h
          cases hp : s.tokens[s.prev]? with
          | none => rw [hp] at h; simp at h
          | some ptok =>
              rw [hp] at h
              simp only [] at h
              cases hv : parseNumF64 ptok.lexeme.toList with
              | none => rw [hv] at h; simp at h
              | some v =>
                  rw [hv] at h
                  simp only [] at h
                  simp only [Res.ok.injEq] at h
                  subst h
                  exact ⟨rfl, [.Const v], by simp, by simp [netList, netVal]; rfl⟩
      | pans =>
          simp only [runP, Res.ok.injEq] at h
          subst h
          exact ⟨rfl, [.Ans], by simp, by simp [netList, netVal]; rfl⟩

/-- A successful `parse` emits an operation sequence of net static stack
effect one. -/
theorem parse_net (tokens : List Token) (ops : List Operation)
    (h : parse tokens = .ok ops) : netList ops = 1 := by
  unfold parse at h
  cases h1 : runP (pfuel tokens) .pexpr ⟨tokens, [], 0, 0⟩ with
  | err e => rw [h1] at h; simp at h
  | panic => rw [h1] at h; simp at h
  | ok s1 =>
      rw [h1] at h
      simp only [consumeEOF] at h
      cases hc : s1.tokens[s1.curr]? with
      | none => rw [hc] at h; simp at h
      | some t =>
          rw [hc] at h
          simp only [] at h
          by_cases he : t.token_type = .EOF
          · rw [if_pos he] at h
            simp only [Res.ok.injEq] at h
            obtain ⟨_, d, hd, hn⟩ := runP_net _ _ _ _ h1
            simp only [padvance] at h
            rw [← h, hd]
            simp only [List.nil_append]
            rw [hn]; rfl
          · rw [if_neg he] at h; simp at h

/-- Wrapper of `scanLoop_ident` for the public `scan` entry point. -/
theorem scan_unknown_identifier (c : Char) (rest : List Char)
    (hstart : isIdentStart c = true)
    (hall : ∀ x ∈ c :: rest, isAlphaC x = true)
    (hkw : String.mk (c :: rest) ∉ keywords) :
    scan (c :: rest)
      = .err (.UnknownIdentifier (String.mk (c :: rest)) (0, (c :: rest).length)) := by
  unfold scan
  rw [show 2 * (c :: rest).length + 8 = (2 * (c :: rest).length + 7) + 1 by omega]
  exact scanLoop_ident _ c rest (by omega) hstart hall hkw

/-- Wrapper of `scanLoop_z` for the public `scan` entry point. -/
theorem scan_z_start (rest : List Char) :
    scan ('z' :: rest) = .err (.UnexpectedChar "z" (0, 1)) := by
  unfold scan
  rw [show 2 * ('z' :: rest).length + 8 = (2 * ('z' :: rest).length + 7) + 1 by omega]
  exact scanLoop_z _ rest

/-- C8 (amended): the keyword set actually implemented is only
{sin, cos, tan, arcsin, arccos, arctan} — `ans`, `ln` and `exp` are not in
`identifier_type`'s match.  Each implemented keyword is resolved to its
token; any other maximal run of ASCII letters makes `scan` fail with
`UnknownIdentifier` carrying that lexeme and its span, except that a run
starting with lowercase `'z'` fails with `UnexpectedChar` instead (the
identifier-start pattern `'a'..'z'` is exclusive). -/
theorem keyword_resolution :
    (scan "sin".toList = .ok [⟨.Sin, "sin", (0, 3)⟩, ⟨.EOF, "", (3, 4)⟩])
    ∧ (scan "cos".toList = .ok [⟨.Cos, "cos", (0, 3)⟩, ⟨.EOF, "", (3, 4)⟩])
    ∧ (scan "tan".toList = .ok [⟨.Tan, "tan", (0, 3)⟩, ⟨.EOF, "", (3, 4)⟩])
    ∧ (scan "arcsin".toList = .ok [⟨.ArcSin, "arcsin", (0, 6)⟩, ⟨.EOF, "", (6, 7)⟩])
    ∧ (scan "arccos".toList = .ok [⟨.ArcCos, "arccos", (0, 6)⟩, ⟨.EOF, "", (6, 7)⟩])
    ∧ (scan "arctan".toList = .ok [⟨.ArcTan, "arctan", (0, 6)⟩, ⟨.EOF, "", (6, 7)⟩])
    ∧ (∀ (c : Char) (rest : List Char), isIdentStart c = true →
        (∀ x ∈ c :: rest, isAlphaC x = true) → String.mk (c :: rest) ∉ keywords →
        scan (c :: rest)
          = .err (.UnknownIdentifier (String.mk (c :: rest)) (0, (c :: rest).length)))
    ∧ (∀ rest : List Char, scan ('z' :: rest) = .err (.UnexpectedChar "z" (0, 1))) :=
  ⟨by decide, by decide, by decide, by decide, by decide, by decide,
    scan_unknown_identifier, scan_z_start⟩

/-- C8 witness: the non-keyword letter run `foo` lexes to
`UnknownIdentifier` with the full lexeme and span. -/
theorem keyword_resolution_witness :
    scan ['f', 'o', 'o'] = .err (.UnknownIdentifier (String.mk ['f', 'o', 'o'])
      (0, (['f', 'o', 'o'] : List Char).length)) :=
  keyword_resolution.2.2.2.2.2.2.1 'f' ['o', 'o'] (by decide) (by decide) (by decide)

/-- C8 counterexample: `ans` is claimed to be in the keyword set, but
`identifier_type` has no `ans` arm — scanning `"ans"` fails with
`UnknownIdentifier` instead of succeeding with a keyword token. -/
theorem ans_keyword_counterexample :
    scan "ans".toList = .err (.UnknownIdentifier "ans" (0, 3)) := by decide

/-- C1 (amended, positive half): for every operation sequence produced by a
successful parse, a successful interpretation leaves exactly one value on
the evaluation stack at termination.  (The negative half of the claim fails:
`interpret` itself never checks the final stack size — see the
counterexample.) -/
theorem parse_interpret_single_value (tokens : List Token) (ops : List Operation)
    (R : RealFns) (ur : Bool) (st : List F64)
    (hp : parse tokens = .ok ops)
    (hi : interpretOps R ur ops [] = Except.ok st) : st.length = 1 := by
  have h1 := parse_net tokens ops hp
  have h2 := interpretOps_len R ur ops [] st hi
  simp only [List.length_nil, Nat.cast_zero, zero_add, h1] at h2
  omega

/-- C1 witness: the parse of `1` (token form) yields `[Const 1]`, whose
interpretation ends with the one-element stack `[1]`. -/
theorem parse_interpret_single_value_witness : [F64.fin 1].length = 1 :=
  parse_interpret_single_value [⟨.Number, "1", (0, 1)⟩, ⟨.EOF, "", (1, 2)⟩]
    [.Const (.fin 1)] R0 true [.fin 1] (by decide) (by decide)

/-- C2 (amended): executing `Ans` always fails with `NotImplemented`,
whatever the VM state: the `interpret` dispatch has no `Ans` arm (it falls
to the catch-all), and the `VirtualMachine` struct stores no last answer,
so no prior evaluation can change this. -/
theorem ans_always_not_implemented (R : RealFns) (vm : VirtualMachine) :
    interpret R vm [.Ans] = .err .NotImplemented := by
  simp [interpret, interpretOps, step]

/-- C2 counterexample: on a fresh VM, `interpret([Ans])` fails with
`NotImplemented` — not with the `Underflow`-class "no previous answer" error
the claim asserts. -/
theorem ans_counterexample :
    interpret R0 VirtualMachine.new [.Ans] = .err .NotImplemented
    ∧ RuntimeError.NotImplemented ≠ RuntimeError.Underflow := by decide

/-- C3: `interpret([Const(a), Const(b), Divide])` fails with the math-error
kind exactly when `b == 0.0`, and otherwise returns `a/b` — the
second-popped value `a` is the dividend. -/
theorem divide_math_error_iff (R : RealFns) (vm : VirtualMachine) (a b : F64) :
    (interpret R vm [.Const a, .Const b, .Divide] = .err .MathError
      ↔ F64.beq b (.fin 0) = true)
    ∧ (F64.beq b (.fin 0) = false →
        interpret R vm [.Const a, .Const b, .Divide] = .ok ⟨F64.div a b⟩) := by
  by_cases hb : F64.beq b (.fin 0) <;>
    simp [interpret, interpretOps, step, interpret_divide, hb]

/-- C3 witness: `6 / 3` evaluates successfully. -/
theorem divide_math_error_iff_witness :
    interpret R0 VirtualMachine.new [.Const (.fin 6), .Const (.fin 3), .Divide]
      = .ok ⟨F64.div (.fin 6) (.fin 3)⟩ :=
  (divide_math_error_iff R0 VirtualMachine.new (.fin 6) (.fin 3)).2 (by decide)

/-- C4 (amended): `interpret([Const(x), ArcSin])` fails with the
domain-error kind iff `x` is NaN, `x < -1.0`, or `x > 1.0` (equivalently,
iff `asin(x)` is NaN) — the NaN input also fails, which the original
`x < -1.0 or x > 1.0` condition does not cover. -/
theorem arcsin_domain_error_iff (R : RealFns) (vm : VirtualMachine) (x : F64) :
    interpret R vm [.Const x, .ArcSin] = .err .DomainError
      ↔ (F64.isNan x = true ∨ F64.flt x (.fin (-1)) = true ∨ F64.flt (.fin 1) x = true) := by
  cases x with
  | nan => simp [interpret, interpretOps, step, interpret_inv_trig, asinF, F64.isNan, F64.flt]
  | inf => simp [interpret, interpretOps, step, interpret_inv_trig, asinF, F64.isNan, F64.flt]
  | ninf => simp [interpret, interpretOps, step, interpret_inv_trig, asinF, F64.isNan, F64.flt]
  | fin q =>
      by_cases hq : q < -1 ∨ 1 < q
      · simp [interpret, interpretOps, step, interpret_inv_trig, asinF, hq, F64.isNan, F64.flt]
      · cases hur : vm.use_radians <;>
          simp [interpret, interpretOps, step, interpret_inv_trig, asinF, hq, hur,
            F64.isNan, F64.flt, toDegreesF, not_or] at *

/-- C4 counterexample: for `x = NaN` the evaluation fails with
`DomainError`, yet neither `x < -1.0` nor `x > 1.0` holds under `f64`
comparison (NaN comparisons are false), refuting the claimed "if and only
if" on non-finite inputs. -/
theorem arcsin_nan_counterexample :
    interpret R0 VirtualMachine.new [.Const .nan, .ArcSin] = .err .DomainError
    ∧ F64.flt .nan (.fin (-1)) = false
    ∧ F64.flt (.fin 1) .nan = false := by decide

/-- C5: scanning `"1+2*3"` and parsing the resulting token sequence
(terminated by the end-of-input token) succeeds and yields exactly
`Const(1), Const(2), Const(3), Times, Add`: multiplication binds tighter
than addition and `Times` is emitted before `Add`. -/
theorem parse_one_plus_two_times_three :
    scan "1+2*3".toList
      = .ok [⟨.Number, "1", (0, 1)⟩, ⟨.Plus, "+", (1, 2)⟩, ⟨.Number, "2", (2, 3)⟩,
             ⟨.Star, "*", (3, 4)⟩, ⟨.Number, "3", (4, 5)⟩, ⟨.EOF, "", (5, 6)⟩]
    ∧ parse [⟨.Number, "1", (0, 1)⟩, ⟨.Plus, "+", (1, 2)⟩, ⟨.Number, "2", (2, 3)⟩,
             ⟨.Star, "*", (3, 4)⟩, ⟨.Number, "3", (4, 5)⟩, ⟨.EOF, "", (5, 6)⟩]
      = .ok [.Const (.fin 1), .Const (.fin 2), .Const (.fin 3), .Times, .Add] := by decide

/-- C7 (amended): each of `( ) , - + * /` is tokenized as a single-character
token, but `^` is not among the single-character tokens: scanning `"^"`
fails with `UnexpectedChar` (no caret arm exists in the scan match, and no
caret variant exists in the `TokenType` declaration of `src/token.rs`). -/
theorem single_char_tokens :
    scan "(".toList = .ok [⟨.LeftParen, "(", (0, 1)⟩, ⟨.EOF, "", (1, 2)⟩]
    ∧ scan ")".toList = .ok [⟨.RightParen, ")", (0, 1)⟩, ⟨.EOF, "", (1, 2)⟩]
    ∧ scan ",".toList = .ok [⟨.Comma, ",", (0, 1)⟩, ⟨.EOF, "", (1, 2)⟩]
    ∧ scan "-".toList = .ok [⟨.Minus, "-", (0, 1)⟩, ⟨.EOF, "", (1, 2)⟩]
    ∧ scan "+".toList = .ok [⟨.Plus, "+", (0, 1)⟩, ⟨.EOF, "", (1, 2)⟩]
    ∧ scan "*".toList = .ok [⟨.Star, "*", (0, 1)⟩, ⟨.EOF, "", (1, 2)⟩]
    ∧ scan "/".toList = .ok [⟨.Slash, "/", (0, 1)⟩, ⟨.EOF, "", (1, 2)⟩]
    ∧ scan "^".toList = .err (.UnexpectedChar "^" (0, 1)) := by decide

/-- C7 counterexample: scanning the one-character input `"^"` does not
succeed — it fails with `UnexpectedChar` — so there is no caret token. -/
theorem caret_counterexample :
    scan "^".toList = .err (.UnexpectedChar "^" (0, 1)) := by decide

/-- C9: if `interpret` returns an error, the VM's persistent state is
unchanged from before the call.  (In the source the persistent state is
`use_radians` plus the unused `table`; there is no last-answer register.
The method body never assigns any field of `self`, so the state is in fact
unchanged even on success.) -/
theorem interpret_error_state_unchanged (R : RealFns) (vm : VirtualMachine)
    (ops : List Operation) (e : RuntimeError)
    (_h : (interpretVM R vm ops).1 = .err e) : (interpretVM R vm ops).2 = vm := rfl

/-- C9 witness: a failing evaluation (`[Add]`, stack underflow) leaves the
fresh VM state intact. -/
theorem interpret_error_state_unchanged_witness :
    (interpretVM R0 VirtualMachine.new [.Add]).2 = VirtualMachine.new :=
  interpret_error_state_unchanged R0 VirtualMachine.new [.Add] .Underflow (by decide)

/-- C10 (amended): for every nonempty operation sequence, `interpret`
terminates with a result or a `RuntimeError` and never panics — the final
`stack[0]` read is in bounds because a successfully executed last operation
always leaves a pushed value.  (For the empty sequence the read is out of
bounds; see the counterexample.) -/
theorem interpret_total_nonempty (R : RealFns) (vm : VirtualMachine)
    (ops : List Operation) (h : ops ≠ []) : interpret R vm ops ≠ .panic := by
  unfold interpret
  cases hi : interpretOps R vm.use_radians ops [] with
  | error e => simp
  | ok st =>
      have hne := interpretOps_ne R vm.use_radians ops [] st h hi
      cases hl : st.getLast? with
      | some v => simp [hl]
      | none =>
          exfalso
          rcases st with _ | ⟨a, as⟩
          · exact hne rfl
          · simp [List.getLast?] at hl

/-- C10 witness: the singleton sequence `[Add]` does not panic (it returns
the `Underflow` error). -/
theorem interpret_total_nonempty_witness :
    interpret R0 VirtualMachine.new [.Add] ≠ .panic :=
  interpret_total_nonempty R0 VirtualMachine.new [.Add] (by simp)

/-- C10 counterexample: on the empty operation sequence the loop finishes
with an empty stack and the final `stack[0]` read is out of bounds — the
source's `Ok(InterpretOutput { result: stack[0] })` panics. -/
theorem interpret_empty_counterexample :
    interpret R0 VirtualMachine.new [] = .panic := by decide

/-- C1 counterexample: `interpret` happily returns a successful result
while two values remain on the evaluation stack — it reads `stack[0]` and
ignores the rest, so the "never returns a result with extra values" half of
the claim is false for sequences not produced by the parser. -/
theorem interpret_extra_values_counterexample :
    interpretOps R0 true [.Const (.fin 1), .Const (.fin 2)] [] = .ok [.fin 2, .fin 1]
    ∧ interpret R0 VirtualMachine.new [.Const (.fin 1), .Const (.fin 2)] = .ok ⟨.fin 1⟩
    ∧ [F64.fin 2, F64.fin 1].length ≠ 1 := by decide

end Calc
